import Mathlib

/-!
Verification development for the journaled `FileManager` (WAL + cache +
consolidation engine of `src/include/filemanager.h`).

Modelling conventions:
* `std::string` is modelled as `List Char`; `size_t` as `Nat`, with the
  unsigned 64-bit range made explicit (`u64Bound`) exactly where
  `std::stoull` can overflow.
* C++ exceptions are modelled by `Except CppExc`; `CppExc` names the
  exception types actually thrown by the source.
* File I/O is out of scope: the journal is modelled as the list of its
  entry lines, and replay consumes that list directly.
-/

deriving instance DecidableEq for Except

/-- Exception types thrown by the source code (`std::out_of_range`,
`std::invalid_argument`).  `std::stoull` throws `invalid_argument` when no
conversion can be performed and `out_of_range` when the value exceeds the
`unsigned long long` range. -/
inductive CppExc where
  | out_of_range
  | invalid_argument
deriving DecidableEq, Repr

/-- The spec's error taxonomy (section 7) groups the exceptions thrown at
index-violation sites (`std::out_of_range` from `read`/`first`/`last`,
`std::invalid_argument` from `_apply_overwrite`/`_apply_erase`) under the
single name IndexOutOfRange. -/
def isIndexOutOfRange : CppExc → Bool
  | .out_of_range => true
  | .invalid_argument => true

/-- One past the largest `unsigned long long` value: `std::stoull` throws
`std::out_of_range` at this bound. -/
def u64Bound : Nat := 2 ^ 64

/-- `Journal::Token`: `{ bool isValid = false; std::string value; }`. -/
structure Token where
  isValid : Bool := false
  value : List Char := []
deriving DecidableEq, Repr

/-- Index of the first `';'` (COMMAND_DELIMITER) in a character list. -/
def findSemi : List Char → Option Nat
  | [] => none
  | c :: cs => if c = ';' then some 0 else (findSemi cs).map (· + 1)

/-- `std::string::find(COMMAND_DELIMITER, offset)`: position of the first
`';'` at or after `offset`, `none` playing the role of `npos`. -/
def findFrom (line : List Char) (offset : Nat) : Option Nat :=
  (findSemi (line.drop offset)).map (· + offset)

/-- `std::string::substr(pos, len)` at the in-range call sites of the
source: the `len` characters starting at `pos` (fewer if the string
ends first). -/
def substr (l : List Char) (pos len : Nat) : List Char :=
  (l.drop pos).take len

/-- `Journal::_is_numerical`: true when every character is a decimal digit
(vacuously true for the empty string, as with `std::find_if`). -/
def _is_numerical (l : List Char) : Bool :=
  l.all (fun c => c.isDigit)

/-- Value of a decimal digit string (the accumulator loop underlying
`std::stoull` on digit input). -/
def digitsVal (l : List Char) : Nat :=
  l.foldl (fun a c => 10 * a + (c.toNat - 48)) 0

/-- `std::stoull`: parses the leading run of decimal digits; throws
`std::invalid_argument` when there is none and `std::out_of_range` when
the value exceeds the `unsigned long long` range.  (Leading whitespace
and sign handling are omitted: every call site in the source receives
digit-only or already-validated data.) -/
def stoull (l : List Char) : Except CppExc Nat :=
  let ds := l.takeWhile Char.isDigit
  if ds.isEmpty then .error .invalid_argument
  else if digitsVal ds < u64Bound then .ok (digitsVal ds)
  else .error .out_of_range

/-- Decimal digits of `n`, most significant first, built with explicit
fuel (`n + 1` steps always suffice); mirrors `std::to_string` on
unsigned values. -/
def natDigitsAux (n : Nat) : Nat → List Char → List Char
  | 0, acc => acc
  | fuel + 1, acc =>
    let acc' := Nat.digitChar (n % 10) :: acc
    if n < 10 then acc' else natDigitsAux (n / 10) fuel acc'

/-- `std::to_string` of a `size_t` value. -/
def natDigits (n : Nat) : List Char :=
  natDigitsAux n (n + 1) []

/-- `Journal::tokenize` on an already-textual value:
`to_string(result.size()) + ';' + result + ';'`. -/
def tokChars (v : List Char) : List Char :=
  natDigits v.length ++ ';' :: (v ++ [';'])

/-- `Journal::_extract_token`.  Returns the token together with the new
cursor (`none` playing the role of `npos`); `std::stoull` exceptions
propagate through `Except`. -/
def _extract_token (line : List Char) (offset : Nat) :
    Except CppExc (Token × Option Nat) :=
  match findFrom line offset with
  | none => .ok ({ isValid := false, value := [] }, none)
  | some delimiter =>
    let data := substr line offset (delimiter - offset)
    if ¬ _is_numerical data then .ok ({ isValid := false, value := [] }, none)
    else
      match stoull data with
      | .error e => .error e
      | .ok length =>
        if line.length - delimiter - 1 ≤ length then
          .ok ({ isValid := false, value := [] }, none)
        else
          let value := substr line (delimiter + 1) length
          let new_offset := delimiter + 1 + length + 1
          .ok ({ isValid := true, value := value },
               if new_offset < line.length then some new_offset else none)

example : _extract_token ('1' :: ';' :: 'x' :: ';' :: []) 0 =
    .ok ({ isValid := true, value := ['x'] }, none) := by decide

example : _extract_token ('A' :: ';' :: ';' :: 'x' :: []) 2 =
    .error .invalid_argument := by decide

example : natDigits 130 = ['1', '3', '0'] := by decide

example : tokChars ("ab;cd".data) = "5;ab;cd;".data := by decide

/-- In-memory state of `FileManager`: `_cache` (storage slots),
`_index_order` (logical row → slot) and `_needs_consolidation`
(the dirty flag). -/
structure FMState where
  cache : List (List Char)
  index_order : List Nat
  needs_consolidation : Bool
deriving DecidableEq, Repr

/-- `FileManager::size()`. -/
def FMState.size (s : FMState) : Nat := s.index_order.length

/-- `FileManager::empty()`. -/
def FMState.empty (s : FMState) : Bool := s.index_order.isEmpty

/-- `FileManager::read(index)`: `_cache[_index_order[index]]` behind the
range check (`std::out_of_range` otherwise). -/
def FMState.read (s : FMState) (index : Nat) : Except CppExc (List Char) :=
  if index ≥ s.index_order.length then .error .out_of_range
  else .ok (s.cache.getD (s.index_order.getD index 0) [])

/-- `FileManager::first()`. -/
def FMState.first (s : FMState) : Except CppExc (List Char) :=
  if s.index_order.isEmpty then .error .out_of_range
  else .ok (s.cache.getD (s.index_order.getD 0 0) [])

/-- `FileManager::last()`. -/
def FMState.last (s : FMState) : Except CppExc (List Char) :=
  if s.index_order.isEmpty then .error .out_of_range
  else .ok (s.cache.getD (s.index_order.getD (s.index_order.length - 1) 0) [])

/-- `FileManager::all()`: the cache rows in index order. -/
def FMState.all (s : FMState) : List (List Char) :=
  s.index_order.map (fun j => s.cache.getD j [])

/-- `FileManager::_apply_append`. -/
def _apply_append (text : List Char) (s : FMState) : FMState :=
  let cache' := s.cache ++ [text]
  { cache := cache',
    index_order := s.index_order ++ [cache'.length - 1],
    needs_consolidation := true }

/-- `FileManager::_apply_overwrite` (throws `std::invalid_argument` on an
out-of-range index, before any mutation). -/
def _apply_overwrite (index : Nat) (text : List Char) (s : FMState) :
    Except CppExc FMState :=
  if index ≥ s.index_order.length then .error .invalid_argument
  else .ok { s with cache := s.cache.set (s.index_order.getD index 0) text,
                    needs_consolidation := true }

/-- `FileManager::_compact`: rebuild the cache from the referenced slots in
index order, then reset the index to the identity mapping. -/
def _compact (s : FMState) : FMState :=
  let new_cache := s.index_order.map (fun j => s.cache.getD j [])
  { cache := new_cache,
    index_order := List.range new_cache.length,
    needs_consolidation := s.needs_consolidation }

/-- `FileManager::_apply_erase` (throws `std::invalid_argument` on an
out-of-range index; compacts once 50 or more stale slots accumulate). -/
def _apply_erase (index : Nat) (s : FMState) : Except CppExc FMState :=
  if index ≥ s.index_order.length then .error .invalid_argument
  else
    let s' : FMState :=
      { s with index_order := s.index_order.eraseIdx index,
               needs_consolidation := true }
    .ok (if s'.cache.length ≥ s'.index_order.length + 50 then _compact s' else s')

/-- `FileManager::_apply_clear` (a no-op, dirty flag included, when the
index is already empty). -/
def _apply_clear (s : FMState) : FMState :=
  if s.index_order.isEmpty then s
  else { cache := [], index_order := [], needs_consolidation := true }

/-- `FileManager::_init_cache` reading base-file lines: each line becomes a
slot, the index is the identity mapping. -/
def _init_cache (lines : List (List Char)) : FMState :=
  { cache := lines, index_order := List.range lines.length,
    needs_consolidation := false }

/-- A public mutation of the store, the argument of one journal entry
(`FileManager::Command` together with its arguments). -/
inductive Mutation where
  | append (text : List Char)
  | overwrite (index : Nat) (text : List Char)
  | erase (index : Nat)
  | clear
deriving DecidableEq, Repr

/-- The entry line built by `Journal::record` for a mutation: the command
character, the delimiter, then one token per argument (`tokenize` is
applied to `std::to_string(index)` for `size_t` arguments). -/
def encodeMut : Mutation → List Char
  | .append t => 'A' :: ';' :: tokChars t
  | .overwrite i t => 'O' :: ';' :: (tokChars (natDigits i) ++ tokChars t)
  | .erase i => 'E' :: ';' :: tokChars (natDigits i)
  | .clear => ['C', ';']

/-- The live in-memory effect of a public mutation (`append`, `overwrite`,
`erase`, `clear` each dispatch to the corresponding `_apply_*`). -/
def applyMut : Mutation → FMState → Except CppExc FMState
  | .append t, s => .ok (_apply_append t s)
  | .overwrite i t, s => _apply_overwrite i t s
  | .erase i, s => _apply_erase i s
  | .clear, s => .ok (_apply_clear s)

/-- Total variant of `applyMut`: a failing mutation leaves the state
unchanged (the exception propagates to the caller before any mutation). -/
def applyMutT (m : Mutation) (s : FMState) : FMState :=
  match applyMut m s with
  | .ok s' => s'
  | .error _ => s

/-- Sequencing of live mutations, propagating the first exception. -/
def applyMuts : List Mutation → FMState → Except CppExc FMState
  | [], s => .ok s
  | m :: ms, s =>
    match applyMut m s with
    | .ok s' => applyMuts ms s'
    | .error e => .error e

/-- Total sequencing of live mutations (failures leave the state as is). -/
def applyMutsT : List Mutation → FMState → FMState
  | [], s => s
  | m :: ms, s => applyMutsT ms (applyMutT m s)

/-- No newline character occurs in the row text (a row is one line). -/
def noNewline (t : List Char) : Bool :=
  t.all (fun c => ¬ c = '\n')

/-- The mutation's text fits one journal line and its numbers fit
`size_t` (automatic for any real C++ call). -/
def mutEncodable : Mutation → Bool
  | .append t => noNewline t && decide (t.length < u64Bound)
  | .overwrite i t =>
      noNewline t && decide (t.length < u64Bound) && decide (i < u64Bound)
  | .erase i => decide (i < u64Bound)
  | .clear => true

/-- The mutation is valid for state `s`: encodable, and any index is in
range (so the live call does not throw). -/
def mutValid (s : FMState) : Mutation → Bool
  | .append t => noNewline t && decide (t.length < u64Bound)
  | .overwrite i t =>
      decide (i < s.size) && noNewline t && decide (t.length < u64Bound)
        && decide (i < u64Bound)
  | .erase i => decide (i < s.size) && decide (i < u64Bound)
  | .clear => true

/-- Every mutation of the sequence is valid for the state it is applied
to. -/
def seqValid : FMState → List Mutation → Bool
  | _, [] => true
  | s, m :: ms => mutValid s m && seqValid (applyMutT m s) ms

example : seqValid { cache := [], index_order := [], needs_consolidation := false }
    [.append "hi".data, .append "yo".data, .overwrite 0 "new".data,
     .erase 1, .clear] = true := by decide

lemma digitChar_isDigit {m : Nat} (h : m < 10) :
    (Nat.digitChar m).isDigit = true := by
  interval_cases m <;> decide

lemma digitChar_toNat (m : Nat) (h : m < 10) :
    (Nat.digitChar m).toNat = 48 + m := by
  interval_cases m <;> decide

lemma isDigit_ne_semi {c : Char} (h : c.isDigit = true) : ¬ c = ';' := by
  intro he
  subst he
  exact absurd h (by decide)

lemma digitsVal_append_singleton (a : List Char) (c : Char) :
    digitsVal (a ++ [c]) = 10 * digitsVal a + (c.toNat - 48) := by
  unfold digitsVal
  rw [List.foldl_append]
  rfl

lemma natDigitsAux_spec :
    ∀ (fuel n : Nat) (acc : List Char), n < 10 ^ fuel → 1 ≤ fuel →
    ∃ d : List Char, natDigitsAux n fuel acc = d ++ acc ∧ d ≠ [] ∧
      (∀ c ∈ d, c.isDigit = true) ∧ digitsVal d = n ∧
      n < 10 ^ d.length ∧ (n = 0 ∨ 10 ^ (d.length - 1) ≤ n) := by
  intro fuel
  induction fuel with
  | zero => intro n acc _ h1; omega
  | succ f ih =>
    intro n acc hn _
    by_cases hlt : n < 10
    · refine ⟨[Nat.digitChar (n % 10)], ?_, by simp, ?_, ?_, ?_, ?_⟩
      · simp [natDigitsAux, hlt]
      · intro c hc
        simp at hc
        subst hc
        exact digitChar_isDigit (by omega)
      · have := digitChar_toNat (n % 10) (by omega)
        simp [digitsVal, this]
        omega
      · simpa using hlt
      · simp; omega
    · have hf1 : 1 ≤ f := by
        rcases Nat.eq_zero_or_pos f with hf | hf
        · subst hf; simp at hn; omega
        · exact hf
      have hdiv : n / 10 < 10 ^ f := by
        rw [Nat.div_lt_iff_lt_mul (by norm_num)]
        calc n < 10 ^ (f + 1) := hn
        _ = 10 ^ f * 10 := by rw [pow_succ]
      obtain ⟨d', hd', hne', hdig', hval', hub', hlb'⟩ :=
        ih (n / 10) (Nat.digitChar (n % 10) :: acc) hdiv hf1
      refine ⟨d' ++ [Nat.digitChar (n % 10)], ?_, by simp, ?_, ?_, ?_, ?_⟩
      · have : natDigitsAux n (f + 1) acc =
            natDigitsAux (n / 10) f (Nat.digitChar (n % 10) :: acc) := by
          simp [natDigitsAux, hlt]
        rw [this, hd']
        simp
      · intro c hc
        simp at hc
        rcases hc with hc | hc
        · exact hdig' c hc
        · subst hc; exact digitChar_isDigit (by omega)
      · rw [digitsVal_append_singleton, hval',
          digitChar_toNat (n % 10) (by omega)]
        omega
      · have : n = 10 * (n / 10) + n % 10 := by omega
        rw [List.length_append, List.length_singleton, pow_succ]
        have h9 : n % 10 ≤ 9 := by omega
        calc n = 10 * (n / 10) + n % 10 := this
        _ < 10 ^ d'.length * 10 := by
            have : n % 10 < 10 := Nat.mod_lt n (by norm_num)
            nlinarith [hub']
      · right
        have hq : 1 ≤ n / 10 := by
          rw [Nat.le_div_iff_mul_le (by norm_num)]; omega
        rcases hlb' with h0 | hlb'
        · omega
        · have hd'len : 1 ≤ d'.length := by
            cases d' with
            | nil => exact absurd rfl hne'
            | cons a b => simp
          have : 10 ^ d'.length ≤ 10 * (n / 10) := by
            calc 10 ^ d'.length = 10 * 10 ^ (d'.length - 1) := by
                  rw [← pow_succ']
                  congr 1
                  omega
            _ ≤ 10 * (n / 10) := by omega
          have h10 : 10 * (n / 10) ≤ n := by omega
          simp only [List.length_append, List.length_singleton]
          calc 10 ^ (d'.length + 1 - 1) = 10 ^ d'.length := by congr 1
          _ ≤ n := le_trans this h10

lemma natDigits_spec (n : Nat) :
    natDigits n ≠ [] ∧ (∀ c ∈ natDigits n, c.isDigit = true) ∧
      digitsVal (natDigits n) = n ∧ n < 10 ^ (natDigits n).length ∧
      (n = 0 ∨ 10 ^ ((natDigits n).length - 1) ≤ n) := by
  have hn : n < 10 ^ (n + 1) := by
    calc n < 2 ^ n := Nat.lt_two_pow n
    _ ≤ 10 ^ n := Nat.pow_le_pow_left (by norm_num) n
    _ ≤ 10 ^ (n + 1) := Nat.pow_le_pow_right (by norm_num) (by omega)
  obtain ⟨d, hd, h⟩ := natDigitsAux_spec (n + 1) n [] hn (by omega)
  unfold natDigits
  rw [hd]
  simpa using h

lemma natDigits_length_lt {n : Nat} (h : n < u64Bound) :
    (natDigits n).length < u64Bound := by
  obtain ⟨hne, _, _, _, hlb⟩ := natDigits_spec n
  rcases hlb with h0 | hlb
  · have : (natDigits n).length = (natDigits 0).length := by rw [h0]
    rw [this]
    decide
  · by_contra hge
    push_neg at hge
    have h64 : (64 : Nat) ≤ (natDigits n).length - 1 := by
      have : (2 : Nat) ^ 64 ≤ (natDigits n).length := hge
      have h2 : (65 : Nat) ≤ 2 ^ 64 := by norm_num
      omega
    have : (10 : Nat) ^ 64 ≤ 10 ^ ((natDigits n).length - 1) :=
      Nat.pow_le_pow_right (by norm_num) h64
    have hbig : u64Bound ≤ n := by
      calc u64Bound = 2 ^ 64 := rfl
      _ ≤ 10 ^ 64 := Nat.pow_le_pow_left (by norm_num) 64
      _ ≤ 10 ^ ((natDigits n).length - 1) := this
      _ ≤ n := hlb
    omega

lemma stoull_natDigits {n : Nat} (h : n < u64Bound) :
    stoull (natDigits n) = .ok n := by
  obtain ⟨hne, hdig, hval, -, -⟩ := natDigits_spec n
  have htw : (natDigits n).takeWhile Char.isDigit = natDigits n :=
    List.takeWhile_eq_self_iff.mpr hdig
  unfold stoull
  rw [htw]
  simp only [List.isEmpty_eq_true]
  rw [if_neg hne, hval, if_pos h]

lemma findSemi_no {l : List Char} (h : ∀ c ∈ l, ¬ c = ';') :
    findSemi l = none := by
  induction l with
  | nil => rfl
  | cons c cs ih =>
    simp only [findSemi]
    rw [if_neg (h c (by simp)), ih (fun x hx => h x (by simp [hx]))]
    rfl

lemma findSemi_append_no {l₁ l₂ : List Char} (h : ∀ c ∈ l₁, ¬ c = ';') :
    findSemi (l₁ ++ ';' :: l₂) = some l₁.length := by
  induction l₁ with
  | nil => simp [findSemi]
  | cons c cs ih =>
    simp only [List.cons_append, findSemi, List.append_eq]
    rw [if_neg (h c (by simp)), ih (fun x hx => h x (by simp [hx]))]
    simp

lemma findFrom_le {line : List Char} {offset d : Nat}
    (h : findFrom line offset = some d) : offset ≤ d := by
  unfold findFrom at h
  rcases Option.map_eq_some'.mp h with ⟨x, _, hx⟩
  omega

lemma extract_token_some_lt {line : List Char} {offset : Nat} {t : Token}
    {n' : Nat} (h : _extract_token line offset = .ok (t, some n')) :
    offset < n' ∧ n' < line.length := by
  unfold _extract_token at h
  cases hf : findFrom line offset with
  | none => rw [hf] at h; simp at h
  | some delimiter =>
    rw [hf] at h
    have hod := findFrom_le hf
    simp only at h
    split at h
    · simp at h
    · cases hs : stoull (substr line offset (delimiter - offset)) with
      | error e => rw [hs] at h; simp at h
      | ok length =>
        rw [hs] at h
        simp only at h
        split at h
        · simp at h
        · simp only [Except.ok.injEq, Prod.mk.injEq] at h
          rcases h with ⟨-, h2⟩
          split at h2
          · cases h2; omega
          · cases h2

/-- The token-extraction loop of `Journal::replay`: starting at the cursor,
extract tokens while they are valid, pushing each value onto `args`;
stop at the first invalid token or when the cursor reaches `npos`. -/
def extractTokens (line : List Char) (offset : Nat)
    (args : List (List Char)) : Except CppExc (List (List Char)) :=
  match h : _extract_token line offset with
  | .error e => .error e
  | .ok (t, onew) =>
    if t.isValid then
      match h2 : onew with
      | none => .ok (args ++ [t.value])
      | some n' => extractTokens line n' (args ++ [t.value])
    else .ok args
termination_by line.length - offset
decreasing_by
  have := extract_token_some_lt h
  omega

/-- `FileManager::_execute_command`: dispatch a replayed command through
the same `_apply_*` entry points used by live calls, dropping entries with
missing arguments and throwing `std::invalid_argument` on an unknown
command character. -/
def _execute_command (command : Char) (args : List (List Char))
    (s : FMState) : Except CppExc FMState :=
  if command = 'A' then
    match args with
    | [] => .ok s
    | a₀ :: _ => .ok (_apply_append a₀ s)
  else if command = 'O' then
    if args.length < 2 then .ok s
    else
      match stoull (args.getD 0 []) with
      | .error e => .error e
      | .ok i => _apply_overwrite i (args.getD 1 []) s
  else if command = 'E' then
    match args with
    | [] => .ok s
    | a₀ :: _ =>
      match stoull a₀ with
      | .error e => .error e
      | .ok i => _apply_erase i s
  else if command = 'C' then .ok (_apply_clear s)
  else .error .invalid_argument

/-- One iteration of the `Journal::replay` line loop: command character
`line[0]`, cursor starting at 2, tokens collected by `extractTokens`,
then dispatch through `_execute_command`. -/
def processLine (line : List Char) (s : FMState) : Except CppExc FMState :=
  match extractTokens line 2 [] with
  | .error e => .error e
  | .ok args => _execute_command (line.getD 0 (Char.ofNat 0)) args s

/-- `Journal::replay` over the journal's lines in file order. -/
def replayLines : List (List Char) → FMState → Except CppExc FMState
  | [], s => .ok s
  | l :: ls, s =>
    match processLine l s with
    | .ok s' => replayLines ls s'
    | .error e => .error e

/-- State of `FileManager::Journal`: the pending (unflushed) entries, the
entries already written to the journal file, and the `_outdated` flag. -/
structure Journal where
  pending_commands : List (List Char) := []
  disk : List (List Char) := []
  outdated : Bool := false
deriving DecidableEq, Repr

/-- `Journal::save`: append every pending entry to the journal file and
clear the buffer; a no-op when nothing is outdated. -/
def Journal.save (j : Journal) : Journal :=
  if ¬ j.outdated then j
  else { pending_commands := [], disk := j.disk ++ j.pending_commands,
         outdated := false }

/-- `Journal::record` with the entry line already built (`encodeMut`):
push it, mark outdated, flush once JOURNAL_FLUSH_THRESHOLD (16) pending
entries accumulate. -/
def Journal.record (entry : List Char) (j : Journal) : Journal :=
  let j' : Journal :=
    { pending_commands := j.pending_commands ++ [entry], disk := j.disk,
      outdated := true }
  if j'.pending_commands.length ≥ 16 then j'.save else j'

/-- The full store: in-memory state plus journal. -/
structure Store where
  fm : FMState
  journal : Journal
deriving DecidableEq, Repr

/-- `FileManager::append`: apply in memory, then record the entry. -/
def Store.append (t : List Char) (st : Store) : Store :=
  { fm := _apply_append t st.fm,
    journal := st.journal.record (encodeMut (.append t)) }

/-- `FileManager::overwrite`: an out-of-range exception propagates before
the journal entry is recorded. -/
def Store.overwrite (i : Nat) (t : List Char) (st : Store) :
    Except CppExc Store :=
  match _apply_overwrite i t st.fm with
  | .error e => .error e
  | .ok fm' =>
    .ok { fm := fm', journal := st.journal.record (encodeMut (.overwrite i t)) }

/-- `FileManager::erase`: an out-of-range exception propagates before the
journal entry is recorded. -/
def Store.erase (i : Nat) (st : Store) : Except CppExc Store :=
  match _apply_erase i st.fm with
  | .error e => .error e
  | .ok fm' =>
    .ok { fm := fm', journal := st.journal.record (encodeMut (.erase i)) }

/-- `FileManager::clear`: apply in memory, then record a Clear entry. -/
def Store.clear (st : Store) : Store :=
  { fm := _apply_clear st.fm,
    journal := st.journal.record (encodeMut .clear) }

/-- Modelled from the spec: `_apply_erase` without its threshold-triggered
compaction step, the comparison baseline of the compaction-transparency
property ("the same sequence without compaction"). -/
def _apply_erase_nocompact (index : Nat) (s : FMState) :
    Except CppExc FMState :=
  if index ≥ s.index_order.length then .error .invalid_argument
  else .ok { s with index_order := s.index_order.eraseIdx index,
                    needs_consolidation := true }

/-- A sequence of `erase` calls (exceptions propagate to the caller and
leave the state unchanged). -/
def eraseChain : List Nat → FMState → FMState
  | [], s => s
  | i :: is', s =>
    eraseChain is' (match _apply_erase i s with | .ok s' => s' | .error _ => s)

/-- The same sequence of `erase` calls with compaction disabled. -/
def eraseChainNC : List Nat → FMState → FMState
  | [], s => s
  | i :: is', s =>
    eraseChainNC is'
      (match _apply_erase_nocompact i s with | .ok s' => s' | .error _ => s)

/-- The data-model invariant of section 3 of the spec: the index has one
entry per logical row, its entries are pairwise distinct slot positions,
every entry refers to a valid slot, and the cache never has fewer slots
than the index has rows. -/
def FMInv (s : FMState) : Prop :=
  s.index_order.length = s.size ∧ s.index_order.Nodup ∧
    (∀ j ∈ s.index_order, j < s.cache.length) ∧
    s.index_order.length ≤ s.cache.length


lemma all_isDigit_of_natDigits (n : Nat) :
    ∀ c ∈ natDigits n, ¬ c = ';' := fun c hc =>
  isDigit_ne_semi ((natDigits_spec n).2.1 c hc)

lemma is_numerical_natDigits (n : Nat) : _is_numerical (natDigits n) = true := by
  unfold _is_numerical
  rw [List.all_eq_true]
  intro c hc
  exact (natDigits_spec n).2.1 c hc

lemma tokChars_length (v : List Char) :
    (tokChars v).length = (natDigits v.length).length + v.length + 2 := by
  simp [tokChars]
  omega

/-- Token extraction at the start of a well-formed token: the value is
recovered exactly and the cursor moves just past the trailing delimiter
(`npos` when the token ends the line). -/
lemma extract_token_at (pre v rest : List Char) (hv : v.length < u64Bound) :
    _extract_token (pre ++ tokChars v ++ rest) pre.length =
      .ok ({ isValid := true, value := v },
        if rest.isEmpty then none
        else some (pre.length + (tokChars v).length)) := by
  obtain ⟨hne, hdig, hval, -, -⟩ := natDigits_spec v.length
  have hnosemi := all_isDigit_of_natDigits v.length
  have hsuffix : (pre ++ tokChars v ++ rest).drop pre.length
      = natDigits v.length ++ ';' :: (v ++ ';' :: rest) := by
    rw [List.append_assoc, List.drop_left]
    simp [tokChars, List.append_assoc]
  have hfind : findFrom (pre ++ tokChars v ++ rest) pre.length
      = some ((natDigits v.length).length + pre.length) := by
    unfold findFrom
    rw [hsuffix, findSemi_append_no hnosemi]
    rfl
  have hdatalen : (natDigits v.length).length + pre.length - pre.length
      = (natDigits v.length).length := by omega
  have hdata : substr (pre ++ tokChars v ++ rest) pre.length
      ((natDigits v.length).length + pre.length - pre.length)
      = natDigits v.length := by
    unfold substr
    rw [hsuffix, hdatalen]
    exact List.take_left _ _
  have hlinelen : (pre ++ tokChars v ++ rest).length
      = pre.length + (natDigits v.length).length + 1 + v.length + 1
        + rest.length := by
    simp [tokChars]
    omega
  have hvaluedrop : (pre ++ tokChars v ++ rest).drop
      ((natDigits v.length).length + pre.length + 1) = v ++ ';' :: rest := by
    have hform : pre ++ tokChars v ++ rest
        = (pre ++ natDigits v.length ++ [';']) ++ (v ++ ';' :: rest) := by
      simp [tokChars, List.append_assoc]
    have hlen : (pre ++ natDigits v.length ++ [';']).length
        = (natDigits v.length).length + pre.length + 1 := by
      simp
      omega
    rw [hform, ← hlen, List.drop_left]
  have hvalue : substr (pre ++ tokChars v ++ rest)
      ((natDigits v.length).length + pre.length + 1) v.length = v := by
    unfold substr
    rw [hvaluedrop]
    exact List.take_left _ _
  unfold _extract_token
  rw [hfind]
  simp only [hdata, is_numerical_natDigits, stoull_natDigits hv]
  rw [if_neg (by simp), hvalue]
  rw [if_neg (by rw [hlinelen]; omega)]
  cases rest with
  | nil =>
    rw [if_neg (by rw [hlinelen]; simp; omega)]
    simp
  | cons r rs =>
    rw [if_pos (by rw [hlinelen]; simp; omega)]
    simp [tokChars_length]
    omega

/-- Token extraction on a strict (possibly empty) leading fragment of a
well-formed token that ends the line: the tear is always detected and
signalled as an invalid token, never as an exception. -/
lemma extract_token_torn (pre v r : List Char) (hr : r <+: tokChars v)
    (hne : r ≠ tokChars v) (hv : v.length < u64Bound) :
    _extract_token (pre ++ r) pre.length =
      .ok ({ isValid := false, value := [] }, none) := by
  obtain ⟨rest, hcat⟩ := hr
  have hrestne : rest ≠ [] := by
    intro h
    subst h
    simp at hcat
    exact hne hcat
  have hrestlen : 1 ≤ rest.length := by
    cases rest with
    | nil => exact absurd rfl hrestne
    | cons a b => simp
  have hnosemi := all_isDigit_of_natDigits v.length
  have hdrop : (pre ++ r).drop pre.length = r := List.drop_left _ _
  have htok : tokChars v = natDigits v.length ++ ';' :: (v ++ [';']) := rfl
  by_cases hle : r.length ≤ (natDigits v.length).length
  · have hrtake : r = (natDigits v.length).take r.length := by
      have h1 := congrArg (List.take r.length) hcat
      rw [List.take_left] at h1
      rw [htok] at h1
      rw [List.take_append_of_le_length hle] at h1
      exact h1
    have hrno : ∀ c ∈ r, ¬ c = ';' := by
      intro c hc
      rw [hrtake] at hc
      exact hnosemi c (List.take_subset _ _ hc)
    unfold _extract_token findFrom
    rw [hdrop, findSemi_no hrno]
    rfl
  · push_neg at hle
    rw [htok] at hcat
    rcases List.append_eq_append_iff.mp hcat with ⟨a, ha1, -⟩ | ⟨c, hc1, hc2⟩
    · have := congrArg List.length ha1
      simp at this
      omega
    · cases c with
      | nil =>
        simp at hc1
        subst hc1
        omega
      | cons c0 cw =>
        have hc0 : c0 = ';' ∧ v ++ [';'] = cw ++ rest := by
          have h2 := hc2.symm
          simp at h2
          exact ⟨h2.1, h2.2.symm⟩
        obtain ⟨hc0, hw⟩ := hc0
        subst hc0
        have hwlen : cw.length ≤ v.length := by
          have := congrArg List.length hw
          simp at this
          omega
        have hrform : r = natDigits v.length ++ ';' :: cw := hc1
        have hfind : findFrom (pre ++ r) pre.length
            = some ((natDigits v.length).length + pre.length) := by
          unfold findFrom
          rw [hdrop, hrform, findSemi_append_no hnosemi]
          rfl
        have hdata : substr (pre ++ r) pre.length
            ((natDigits v.length).length + pre.length - pre.length)
            = natDigits v.length := by
          unfold substr
          rw [hdrop, hrform]
          have : (natDigits v.length).length + pre.length - pre.length
              = (natDigits v.length).length := by omega
          rw [this]
          exact List.take_left _ _
        have hlen : (pre ++ r).length
            = pre.length + (natDigits v.length).length + 1 + cw.length := by
          rw [hrform]
          simp
          omega
        unfold _extract_token
        rw [hfind]
        simp only [hdata, is_numerical_natDigits, stoull_natDigits hv]
        rw [if_neg (by simp)]
        rw [if_pos (by rw [hlen]; omega)]

lemma extractTokens_error {line : List Char} {off : Nat} {e : CppExc}
    (h : _extract_token line off = .error e) (args : List (List Char)) :
    extractTokens line off args = .error e := by
  rw [extractTokens]
  split
  next e' heq => rw [h] at heq; cases heq; rfl
  next t onew heq => rw [h] at heq; cases heq

lemma extractTokens_invalid {line : List Char} {off : Nat} {t : Token}
    {o : Option Nat} (h : _extract_token line off = .ok (t, o))
    (hval : t.isValid = false) (args : List (List Char)) :
    extractTokens line off args = .ok args := by
  rw [extractTokens]
  split
  next e' heq => rw [h] at heq; cases heq
  next t' onew heq =>
    rw [h] at heq
    cases heq
    rw [if_neg (by rw [hval]; simp)]

lemma extractTokens_last {line : List Char} {off : Nat} {t : Token}
    (h : _extract_token line off = .ok (t, none)) (hval : t.isValid = true)
    (args : List (List Char)) :
    extractTokens line off args = .ok (args ++ [t.value]) := by
  rw [extractTokens]
  split
  next e' heq => rw [h] at heq; cases heq
  next t' onew heq =>
    rw [h] at heq
    cases heq
    rw [if_pos hval]

lemma extractTokens_step {line : List Char} {off n' : Nat} {t : Token}
    (h : _extract_token line off = .ok (t, some n')) (hval : t.isValid = true)
    (args : List (List Char)) :
    extractTokens line off args = extractTokens line n' (args ++ [t.value]) := by
  rw [extractTokens]
  split
  next e' heq => rw [h] at heq; cases heq
  next t' onew heq =>
    rw [h] at heq
    cases heq
    rw [if_pos hval]

lemma extractTokens_end (line : List Char) (off : Nat)
    (h : line.length ≤ off) (args : List (List Char)) :
    extractTokens line off args = .ok args := by
  have hext : _extract_token line off =
      .ok ({ isValid := false, value := [] }, none) := by
    unfold _extract_token findFrom
    rw [List.drop_eq_nil_of_le h]
    rfl
  exact extractTokens_invalid hext rfl args

lemma tokChars_ne_nil (v : List Char) : tokChars v ≠ [] := by
  unfold tokChars
  intro h
  have := (natDigits_spec v.length).1
  simp at h

lemma extractTokens_single (pre v : List Char) (hv : v.length < u64Bound)
    (args : List (List Char)) :
    extractTokens (pre ++ tokChars v) pre.length args = .ok (args ++ [v]) := by
  have h := extract_token_at pre v [] hv
  rw [List.append_nil] at h
  simp only [List.isEmpty_nil, if_pos] at h
  exact extractTokens_last h rfl args

lemma extractTokens_pair (pre v₁ v₂ : List Char) (h₁ : v₁.length < u64Bound)
    (h₂ : v₂.length < u64Bound) (args : List (List Char)) :
    extractTokens (pre ++ tokChars v₁ ++ tokChars v₂) pre.length args
      = .ok (args ++ [v₁, v₂]) := by
  have h := extract_token_at pre v₁ (tokChars v₂) h₁
  have hne : (tokChars v₂).isEmpty = false := by
    cases hc : tokChars v₂ with
    | nil => exact absurd hc (tokChars_ne_nil v₂)
    | cons a b => rfl
  rw [hne] at h
  simp only [Bool.false_eq_true, if_false] at h
  rw [extractTokens_step h rfl]
  have hpre : pre.length + (tokChars v₁).length = (pre ++ tokChars v₁).length := by
    simp
  rw [hpre, List.append_assoc]
  have := extractTokens_single (pre ++ tokChars v₁) v₂ h₂ (args ++ [v₁])
  rw [List.append_assoc] at this
  simpa using this

lemma extractTokens_torn (pre v r : List Char) (hr : r <+: tokChars v)
    (hne : r ≠ tokChars v) (hv : v.length < u64Bound)
    (args : List (List Char)) :
    extractTokens (pre ++ r) pre.length args = .ok args :=
  extractTokens_invalid (extract_token_torn pre v r hr hne hv) rfl args

lemma processLine_append (t : List Char) (ht : t.length < u64Bound)
    (s : FMState) :
    processLine (encodeMut (.append t)) s = .ok (_apply_append t s) := by
  have h := extractTokens_single ['A', ';'] t ht []
  simp only [List.cons_append, List.nil_append] at h
  rw [show (['A', ';'] : List Char).length = 2 from rfl] at h
  unfold processLine
  rw [show encodeMut (.append t) = 'A' :: ';' :: tokChars t from rfl, h]
  rfl

lemma processLine_overwrite (i : Nat) (t : List Char) (hi : i < u64Bound)
    (ht : t.length < u64Bound) (s : FMState) :
    processLine (encodeMut (.overwrite i t)) s = _apply_overwrite i t s := by
  have h := extractTokens_pair ['O', ';'] (natDigits i) t
    (natDigits_length_lt hi) ht []
  rw [List.append_assoc] at h
  simp only [List.cons_append, List.nil_append] at h
  rw [show (['O', ';'] : List Char).length = 2 from rfl] at h
  unfold processLine
  rw [show encodeMut (.overwrite i t)
      = 'O' :: ';' :: (tokChars (natDigits i) ++ tokChars t) from rfl, h]
  show _execute_command 'O' [natDigits i, t] s = _apply_overwrite i t s
  unfold _execute_command
  rw [if_neg (by decide), if_pos rfl, if_neg (by simp)]
  show (match stoull (natDigits i) with
    | Except.error e => Except.error e
    | Except.ok j => _apply_overwrite j t s) = _apply_overwrite i t s
  rw [stoull_natDigits hi]

lemma processLine_erase (i : Nat) (hi : i < u64Bound) (s : FMState) :
    processLine (encodeMut (.erase i)) s = _apply_erase i s := by
  have h := extractTokens_single ['E', ';'] (natDigits i)
    (natDigits_length_lt hi) []
  simp only [List.cons_append, List.nil_append] at h
  rw [show (['E', ';'] : List Char).length = 2 from rfl] at h
  unfold processLine
  rw [show encodeMut (.erase i) = 'E' :: ';' :: tokChars (natDigits i) from rfl, h]
  show _execute_command 'E' [natDigits i] s = _apply_erase i s
  unfold _execute_command
  rw [if_neg (by decide), if_neg (by decide), if_pos rfl]
  show (match stoull (natDigits i) with
    | Except.error e => Except.error e
    | Except.ok j => _apply_erase j s) = _apply_erase i s
  rw [stoull_natDigits hi]

lemma processLine_clear (s : FMState) :
    processLine (encodeMut .clear) s = .ok (_apply_clear s) := by
  have h := extractTokens_end ['C', ';'] 2 (by decide) []
  unfold processLine
  rw [show encodeMut .clear = (['C', ';'] : List Char) from rfl, h]
  rfl

/-- Parsing the entry recorded for a mutation and dispatching it through
`_execute_command` has exactly the live mutation's effect. -/
lemma processLine_encode (m : Mutation) (hm : mutEncodable m = true)
    (s : FMState) : processLine (encodeMut m) s = applyMut m s := by
  cases m with
  | append t =>
    simp only [mutEncodable, Bool.and_eq_true, decide_eq_true_eq] at hm
    exact processLine_append t hm.2 s
  | overwrite i t =>
    simp only [mutEncodable, Bool.and_eq_true, decide_eq_true_eq] at hm
    exact processLine_overwrite i t hm.2 hm.1.2 s
  | erase i =>
    simp only [mutEncodable, decide_eq_true_eq] at hm
    exact processLine_erase i hm s
  | clear => exact processLine_clear s

lemma mutValid_encodable {s : FMState} {m : Mutation}
    (h : mutValid s m = true) : mutEncodable m = true := by
  cases m with
  | append t => simpa [mutValid, mutEncodable] using h
  | overwrite i t =>
    simp only [mutValid, Bool.and_eq_true, decide_eq_true_eq] at h
    simp only [mutEncodable, Bool.and_eq_true, decide_eq_true_eq]
    exact ⟨⟨h.1.1.2, h.1.2⟩, h.2⟩
  | erase i =>
    simp only [mutValid, Bool.and_eq_true, decide_eq_true_eq] at h
    simp only [mutEncodable, decide_eq_true_eq]
    exact h.2
  | clear => rfl

lemma applyMutT_eq {m : Mutation} {s s' : FMState}
    (h : applyMut m s = .ok s') : applyMutT m s = s' := by
  unfold applyMutT
  rw [h]

lemma apply_overwrite_ok {i : Nat} {t : List Char} {s : FMState}
    (h : i < s.size) : ∃ s', _apply_overwrite i t s = .ok s' := by
  unfold _apply_overwrite
  rw [if_neg (by unfold FMState.size at h; omega)]
  exact ⟨_, rfl⟩

lemma apply_erase_ok {i : Nat} {s : FMState} (h : i < s.size) :
    ∃ s', _apply_erase i s = .ok s' := by
  unfold _apply_erase
  rw [if_neg (by unfold FMState.size at h; omega)]
  exact ⟨_, rfl⟩

lemma mutValid_ok {s : FMState} {m : Mutation} (h : mutValid s m = true) :
    applyMut m s = .ok (applyMutT m s) := by
  have hex : ∃ s', applyMut m s = .ok s' := by
    cases m with
    | append t => exact ⟨_, rfl⟩
    | overwrite i t =>
      simp only [mutValid, Bool.and_eq_true, decide_eq_true_eq] at h
      show ∃ s', _apply_overwrite i t s = .ok s'
      exact apply_overwrite_ok h.1.1.1
    | erase i =>
      simp only [mutValid, Bool.and_eq_true, decide_eq_true_eq] at h
      show ∃ s', _apply_erase i s = .ok s'
      exact apply_erase_ok h.1
    | clear => exact ⟨_, rfl⟩
  obtain ⟨s', hs'⟩ := hex
  rw [hs', applyMutT_eq hs']

/-- Replaying the recorded entries of a valid mutation sequence reproduces
the live run exactly. -/
lemma replay_encode {ms : List Mutation} {s0 : FMState}
    (hv : seqValid s0 ms = true) :
    applyMuts ms s0 = .ok (applyMutsT ms s0) ∧
      replayLines (ms.map encodeMut) s0 = .ok (applyMutsT ms s0) := by
  induction ms generalizing s0 with
  | nil => exact ⟨rfl, rfl⟩
  | cons m ms ih =>
    simp only [seqValid, Bool.and_eq_true] at hv
    obtain ⟨hm, hrest⟩ := hv
    have hok := mutValid_ok hm
    have henc := processLine_encode m (mutValid_encodable hm) s0
    obtain ⟨ih1, ih2⟩ := ih hrest
    constructor
    · unfold applyMuts
      rw [hok]
      exact ih1
    · unfold replayLines
      rw [List.map_cons] at *
      show (match processLine (encodeMut m) s0 with
        | .ok s' => replayLines (ms.map encodeMut) s'
        | .error e => .error e) = _
      rw [henc, hok]
      show replayLines (ms.map encodeMut) (applyMutT m s0) = _
      rw [ih2]
      rfl

lemma replayLines_append (ls : List (List Char)) (p : List Char) (s : FMState) :
    replayLines (ls ++ [p]) s =
      match replayLines ls s with
      | .ok s₁ => processLine p s₁
      | .error e => .error e := by
  induction ls generalizing s with
  | nil =>
    show (match processLine p s with
      | .ok s' => replayLines [] s'
      | .error e => .error e) = processLine p s
    cases processLine p s <;> rfl
  | cons l ls ih =>
    show (match processLine l s with
      | .ok s' => replayLines (ls ++ [p]) s'
      | .error e => .error e) =
      match (match processLine l s with
        | .ok s' => replayLines ls s'
        | .error e => .error e) with
      | .ok s₁ => processLine p s₁
      | .error e => .error e
    cases processLine l s with
    | ok s' => exact ih s'
    | error e => rfl

lemma nil_of_append_eq_self {q rest : List Char} (h : q ++ rest = q) :
    rest = [] := by
  have hl := congrArg List.length h
  rw [List.length_append] at hl
  have h0 : rest.length = 0 := by omega
  exact List.length_eq_zero.mp h0

lemma processLine_torn_single (c : Char) (v q : List Char)
    (hq : q <+: tokChars v) (hqne : q ≠ tokChars v) (hv : v.length < u64Bound)
    (hc : c = 'A' ∨ c = 'E' ∨ c = 'O') (s : FMState) :
    processLine (c :: ';' :: q) s = .ok s := by
  have h := extractTokens_torn [c, ';'] v q hq hqne hv []
  simp only [List.cons_append, List.nil_append] at h
  rw [show ([c, ';'] : List Char).length = 2 from rfl] at h
  unfold processLine
  rw [h]
  rcases hc with hc | hc | hc <;> subst hc <;> rfl

lemma processLine_one_arg_O (i : Nat) (hi : i < u64Bound) (s : FMState) :
    processLine ('O' :: ';' :: tokChars (natDigits i)) s = .ok s := by
  have h := extractTokens_single ['O', ';'] (natDigits i)
    (natDigits_length_lt hi) []
  simp only [List.cons_append, List.nil_append] at h
  rw [show (['O', ';'] : List Char).length = 2 from rfl] at h
  unfold processLine
  rw [h]
  rfl

/-- Dispatching any nonempty strict leading fragment of a recorded entry
never raises: either the torn entry is dropped (missing arguments) or, for
a Clear entry torn to its bare command character, the clear applies. -/
lemma processLine_torn (m' : Mutation) (p : List Char)
    (hm : mutEncodable m' = true) (hpre : p <+: encodeMut m')
    (hne : p ≠ encodeMut m') (hnil : p ≠ []) (s : FMState) :
    processLine p s = .ok s ∨ processLine p s = .ok (_apply_clear s) := by
  obtain ⟨rest, hcat⟩ := hpre
  have hrestne : rest ≠ [] := by
    intro h
    exact hne (by rw [← hcat, h, List.append_nil])
  cases m' with
  | append t =>
    simp only [mutEncodable, Bool.and_eq_true, decide_eq_true_eq] at hm
    left
    cases p with
    | nil => exact absurd rfl hnil
    | cons c0 p₂ =>
      have hc : c0 = 'A' ∧ p₂ ++ rest = ';' :: tokChars t := by
        rw [show encodeMut (.append t) = 'A' :: ';' :: tokChars t from rfl]
          at hcat
        simp only [List.cons_append] at hcat
        exact ⟨(List.cons.injEq _ _ _ _ ▸ hcat).1,
          (List.cons.injEq _ _ _ _ ▸ hcat).2⟩
      obtain ⟨hc0, hp₂⟩ := hc
      subst hc0
      cases p₂ with
      | nil =>
        have h := extractTokens_end ['A'] 2 (by decide) []
        unfold processLine
        rw [h]
        rfl
      | cons c1 q =>
        have hc1 : c1 = ';' ∧ q ++ rest = tokChars t := by
          simp only [List.cons_append] at hp₂
          exact ⟨(List.cons.injEq _ _ _ _ ▸ hp₂).1,
            (List.cons.injEq _ _ _ _ ▸ hp₂).2⟩
        obtain ⟨hc1, hq⟩ := hc1
        subst hc1
        have hqne : q ≠ tokChars t := by
          intro h
          rw [h] at hq
          exact hrestne (nil_of_append_eq_self hq)
        exact processLine_torn_single 'A' t q ⟨rest, hq⟩ hqne hm.2
          (Or.inl rfl) s
  | erase i =>
    simp only [mutEncodable, decide_eq_true_eq] at hm
    left
    cases p with
    | nil => exact absurd rfl hnil
    | cons c0 p₂ =>
      have hc : c0 = 'E' ∧ p₂ ++ rest = ';' :: tokChars (natDigits i) := by
        rw [show encodeMut (.erase i)
            = 'E' :: ';' :: tokChars (natDigits i) from rfl] at hcat
        simp only [List.cons_append] at hcat
        exact ⟨(List.cons.injEq _ _ _ _ ▸ hcat).1,
          (List.cons.injEq _ _ _ _ ▸ hcat).2⟩
      obtain ⟨hc0, hp₂⟩ := hc
      subst hc0
      cases p₂ with
      | nil =>
        have h := extractTokens_end ['E'] 2 (by decide) []
        unfold processLine
        rw [h]
        rfl
      | cons c1 q =>
        have hc1 : c1 = ';' ∧ q ++ rest = tokChars (natDigits i) := by
          simp only [List.cons_append] at hp₂
          exact ⟨(List.cons.injEq _ _ _ _ ▸ hp₂).1,
            (List.cons.injEq _ _ _ _ ▸ hp₂).2⟩
        obtain ⟨hc1, hq⟩ := hc1
        subst hc1
        have hqne : q ≠ tokChars (natDigits i) := by
          intro h
          rw [h] at hq
          exact hrestne (nil_of_append_eq_self hq)
        exact processLine_torn_single 'E' (natDigits i) q ⟨rest, hq⟩ hqne
          (natDigits_length_lt hm) (Or.inr (Or.inl rfl)) s
  | clear =>
    right
    cases p with
    | nil => exact absurd rfl hnil
    | cons c0 p₂ =>
      have hc : c0 = 'C' ∧ p₂ ++ rest = [';'] := by
        rw [show encodeMut .clear = 'C' :: ';' :: ([] : List Char) from rfl]
          at hcat
        simp only [List.cons_append] at hcat
        exact ⟨(List.cons.injEq _ _ _ _ ▸ hcat).1,
          (List.cons.injEq _ _ _ _ ▸ hcat).2⟩
      obtain ⟨hc0, hp₂⟩ := hc
      subst hc0
      cases p₂ with
      | nil =>
        have h := extractTokens_end ['C'] 2 (by decide) []
        unfold processLine
        rw [h]
        rfl
      | cons c1 q =>
        exfalso
        have hc1 : c1 = ';' ∧ q ++ rest = [] := by
          simp only [List.cons_append] at hp₂
          exact ⟨(List.cons.injEq _ _ _ _ ▸ hp₂).1,
            (List.cons.injEq _ _ _ _ ▸ hp₂).2⟩
        have : rest = [] := (List.append_eq_nil.mp hc1.2).2
        exact hrestne this
  | overwrite i t =>
    simp only [mutEncodable, Bool.and_eq_true, decide_eq_true_eq] at hm
    left
    cases p with
    | nil => exact absurd rfl hnil
    | cons c0 p₂ =>
      have hc : c0 = 'O' ∧
          p₂ ++ rest = ';' :: (tokChars (natDigits i) ++ tokChars t) := by
        rw [show encodeMut (.overwrite i t)
            = 'O' :: ';' :: (tokChars (natDigits i) ++ tokChars t) from rfl]
          at hcat
        simp only [List.cons_append] at hcat
        exact ⟨(List.cons.injEq _ _ _ _ ▸ hcat).1,
          (List.cons.injEq _ _ _ _ ▸ hcat).2⟩
      obtain ⟨hc0, hp₂⟩ := hc
      subst hc0
      cases p₂ with
      | nil =>
        have h := extractTokens_end ['O'] 2 (by decide) []
        unfold processLine
        rw [h]
        rfl
      | cons c1 q =>
        have hc1 : c1 = ';' ∧
            q ++ rest = tokChars (natDigits i) ++ tokChars t := by
          simp only [List.cons_append] at hp₂
          exact ⟨(List.cons.injEq _ _ _ _ ▸ hp₂).1,
            (List.cons.injEq _ _ _ _ ▸ hp₂).2⟩
        obtain ⟨hc1, hq⟩ := hc1
        subst hc1
        rcases List.append_eq_append_iff.mp hq with ⟨a, ha1, -⟩ | ⟨c, hcq, hct⟩
        · cases a with
          | nil =>
            rw [List.append_nil] at ha1
            rw [← ha1]
            exact processLine_one_arg_O i hm.2 s
          | cons a0 aw =>
            have hqpre : q <+: tokChars (natDigits i) := ⟨a0 :: aw, ha1.symm⟩
            have hqne : q ≠ tokChars (natDigits i) := by
              intro h
              rw [h] at ha1
              have := congrArg List.length ha1
              simp at this
            exact processLine_torn_single 'O' (natDigits i) q hqpre hqne
              (natDigits_length_lt hm.2) (Or.inr (Or.inr rfl)) s
        · cases c with
          | nil =>
            rw [List.append_nil] at hcq
            rw [hcq]
            exact processLine_one_arg_O i hm.2 s
          | cons c0' cw =>
            have hcne : (c0' :: cw) ≠ tokChars t := by
              intro h
              rw [h] at hct
              exact hrestne (nil_of_append_eq_self hct.symm)
            have hcpre : (c0' :: cw) <+: tokChars t := ⟨rest, hct.symm⟩
            have hstep := extract_token_at ['O', ';'] (natDigits i)
              (c0' :: cw) (natDigits_length_lt hm.2)
            have hcne2 : ((c0' :: cw) : List Char).isEmpty = false := rfl
            rw [hcne2] at hstep
            simp only [Bool.false_eq_true, if_false] at hstep
            have hline : ('O' :: ';' :: q : List Char)
                = ['O', ';'] ++ tokChars (natDigits i) ++ (c0' :: cw) := by
              rw [hcq]
              simp
            rw [hcq]
            have htorn := extractTokens_torn
              (['O', ';'] ++ tokChars (natDigits i)) t (c0' :: cw)
              hcpre hcne hm.1.2 [natDigits i]
            unfold processLine
            rw [show ('O' :: ';' :: (tokChars (natDigits i) ++ (c0' :: cw))
                : List Char)
              = ['O', ';'] ++ tokChars (natDigits i) ++ (c0' :: cw) by simp]
            rw [show (2 : Nat) = (['O', ';'] : List Char).length from rfl]
            rw [extractTokens_step (hstep.trans (by rw [show (['O', ';']
              : List Char).length = 2 from rfl])) rfl]
            rw [show (2 + (tokChars (natDigits i)).length)
              = (['O', ';'] ++ tokChars (natDigits i)).length by simp; omega]
            rw [show ([] ++ [({ isValid := true, value := natDigits i }
              : Token).value]) = [natDigits i] from rfl]
            rw [htorn]
            rfl

/-- Empty store state (fresh file). -/
def demoInit : FMState :=
  { cache := [], index_order := [], needs_consolidation := false }

/-- A small valid mutation sequence used to instantiate the theorems. -/
def demoMuts : List Mutation :=
  [.append "hi".data, .append "yo".data, .overwrite 0 "new".data,
   .erase 1, .clear]

/-- A single-mutation valid sequence. -/
def demoMuts2 : List Mutation := [.append "hi".data]

/-- A well-formed Append entry used as the torn entry's intended form. -/
def tornFull : Mutation := .append "xy".data

/-- A strict leading fragment of `encodeMut tornFull` (torn mid-token). -/
def tornLine : List Char := "A;2;x".data

/-- C1: Replay/live equivalence.  For every sequence of valid public
mutations (append; overwrite with index < size; erase with index < size;
clear) whose row texts contain no newline, applied from any initial
cache/index state: the live run succeeds, and parsing the entry lines
built by `Journal::record` and dispatching them through
`_execute_command` on a second store starting from the same initial state
produces exactly the same cache/index state (hence identical `all()`,
`read`, `size` results). -/
theorem replay_live_equivalence (s0 : FMState) (ms : List Mutation)
    (hv : seqValid s0 ms = true) :
    applyMuts ms s0 = .ok (applyMutsT ms s0) ∧
      replayLines (ms.map encodeMut) s0 = .ok (applyMutsT ms s0) :=
  replay_encode hv

theorem replay_live_equivalence_witness :
    seqValid demoInit demoMuts = true ∧
      (applyMuts demoMuts demoInit = .ok (applyMutsT demoMuts demoInit) ∧
        replayLines (demoMuts.map encodeMut) demoInit
          = .ok (applyMutsT demoMuts demoInit)) :=
  ⟨by decide, replay_live_equivalence demoInit demoMuts (by decide)⟩

/-- C2: Crash-torn journal tolerance.  For a journal whose lines are
well-formed entries of a valid mutation sequence except the last, a
nonempty strict leading fragment of a well-formed entry: replay applies
every well-formed entry in file order and does not raise for the
truncated line; moreover command dispatch drops, without changing state,
any entry whose decoded argument list is shorter than its command's arity
(Overwrite with fewer than two arguments, Append or Erase with none). -/
theorem torn_journal_tolerance (s0 : FMState) (ms : List Mutation)
    (m' : Mutation) (p : List Char) (hv : seqValid s0 ms = true)
    (hm : mutEncodable m' = true) (hpre : p <+: encodeMut m')
    (hne : p ≠ encodeMut m') (hnil : p ≠ []) :
    (∃ s₂, replayLines (ms.map encodeMut ++ [p]) s0 = .ok s₂ ∧
        processLine p (applyMutsT ms s0) = .ok s₂) ∧
    (∀ (args : List (List Char)) (s' : FMState),
      (args.length < 2 → _execute_command 'O' args s' = .ok s') ∧
      (args = [] → _execute_command 'A' args s' = .ok s') ∧
      (args = [] → _execute_command 'E' args s' = .ok s')) := by
  constructor
  · obtain ⟨-, hrep⟩ := replay_encode hv
    rcases processLine_torn m' p hm hpre hne hnil (applyMutsT ms s0)
      with h | h
    · exact ⟨_, by rw [replayLines_append, hrep]; exact h, h⟩
    · exact ⟨_, by rw [replayLines_append, hrep]; exact h, h⟩
  · intro args s'
    refine ⟨?_, ?_, ?_⟩
    · intro harg
      unfold _execute_command
      rw [if_neg (by decide), if_pos rfl, if_pos harg]
    · intro harg
      subst harg
      rfl
    · intro harg
      subst harg
      rfl

theorem torn_journal_tolerance_witness :
    seqValid demoInit demoMuts2 = true ∧ mutEncodable tornFull = true ∧
      (tornLine <+: encodeMut tornFull) ∧ tornLine ≠ encodeMut tornFull ∧
      tornLine ≠ [] ∧
      ((∃ s₂, replayLines (demoMuts2.map encodeMut ++ [tornLine]) demoInit
            = .ok s₂ ∧
          processLine tornLine (applyMutsT demoMuts2 demoInit) = .ok s₂) ∧
       (∀ (args : List (List Char)) (s' : FMState),
         (args.length < 2 → _execute_command 'O' args s' = .ok s') ∧
         (args = [] → _execute_command 'A' args s' = .ok s') ∧
         (args = [] → _execute_command 'E' args s' = .ok s'))) :=
  ⟨by decide, by decide, ⟨"y;".data, by decide⟩, by decide, by decide,
    torn_journal_tolerance demoInit demoMuts2 tornFull tornLine (by decide)
      (by decide) ⟨"y;".data, by decide⟩ (by decide) (by decide)⟩

/-- C3: Token codec round-trip.  For every string with no newline (and a
length representable in `size_t`), decoding the token produced by
`tokenize` starting at its first character yields a valid token whose
value is exactly the encoded string — even when the value contains the
delimiter `';'` — and the cursor advances past the trailing delimiter, to
the position where a following token would be read (`npos` when the token
ends the line). -/
theorem token_roundtrip (v rest : List Char) (hnl : noNewline v = true)
    (hlen : v.length < u64Bound) :
    _extract_token (tokChars v ++ rest) 0 =
      .ok ({ isValid := true, value := v },
        if rest.isEmpty then none else some (tokChars v).length) := by
  have h := extract_token_at [] v rest hlen
  simpa using h

theorem token_roundtrip_witness :
    noNewline ("ab;cd".data) = true ∧ ("ab;cd".data).length < u64Bound ∧
      _extract_token (tokChars ("ab;cd".data) ++ "1;z;".data) 0 =
        .ok ({ isValid := true, value := "ab;cd".data },
          if ("1;z;".data).isEmpty then none
          else some (tokChars ("ab;cd".data)).length) :=
  ⟨by decide, by decide, token_roundtrip _ _ (by decide) (by decide)⟩

lemma is_numerical_nil : _is_numerical [] = true := rfl

lemma stoull_nil : stoull [] = .error .invalid_argument := rfl

lemma stoull_all_digits {l : List Char} (hne : l ≠ [])
    (hd : _is_numerical l = true) :
    stoull l = if digitsVal l < u64Bound then .ok (digitsVal l)
      else .error .out_of_range := by
  unfold _is_numerical at hd
  rw [List.all_eq_true] at hd
  have htw : l.takeWhile Char.isDigit = l :=
    List.takeWhile_eq_self_iff.mpr hd
  unfold stoull
  rw [htw]
  cases l with
  | nil => exact absurd rfl hne
  | cons c cs => rfl

/-- C4 counterexample: at the line "A;;x" with the replay cursor at
offset 2, the length field is empty.  `_is_numerical` accepts the empty
string, so extraction reaches `std::stoull`, which throws
`std::invalid_argument` — the extraction fails in a way other than
signalling an invalid token, contradicting the claim. -/
theorem extract_token_raises_on_empty_length_field :
    _extract_token ("A;;x".data) 2 = .error .invalid_argument ∧
      ¬ ∃ r, _extract_token ("A;;x".data) 2 = .ok r := by
  refine ⟨by decide, ?_⟩
  intro h
  obtain ⟨r, hr⟩ := h
  rw [show _extract_token ("A;;x".data) 2 = .error .invalid_argument
    from by decide] at hr
  cases hr

/-- C4 amended: token decode failure conditions.  Extraction signals an
invalid token (stopping the parse) whenever no delimiter terminating a
length field exists, whenever the length field is nonempty and
non-numeric, or whenever — for a nonempty numeric length field whose
value fits `unsigned long long` — the bytes after the length delimiter do
not suffice for the declared length plus a trailing delimiter.  It does
not merely signal invalid in exactly two further situations: an empty
length field makes `std::stoull` throw `std::invalid_argument`, and a
numeric length field whose value reaches the `unsigned long long` bound
makes it throw `std::out_of_range`; otherwise extraction succeeds with a
valid token. -/
theorem extract_token_failure_classification (line : List Char) (off : Nat) :
    (findFrom line off = none →
      _extract_token line off = .ok ({ isValid := false, value := [] }, none)) ∧
    (∀ d, findFrom line off = some d →
      ((_is_numerical (substr line off (d - off)) = false →
        _extract_token line off
          = .ok ({ isValid := false, value := [] }, none)) ∧
       (substr line off (d - off) = [] →
        _extract_token line off = .error .invalid_argument) ∧
       (substr line off (d - off) ≠ [] →
        _is_numerical (substr line off (d - off)) = true →
        ((u64Bound ≤ digitsVal (substr line off (d - off)) →
          _extract_token line off = .error .out_of_range) ∧
         (digitsVal (substr line off (d - off)) < u64Bound →
          ((line.length - d - 1 ≤ digitsVal (substr line off (d - off)) →
            _extract_token line off
              = .ok ({ isValid := false, value := [] }, none)) ∧
           (digitsVal (substr line off (d - off)) < line.length - d - 1 →
            _extract_token line off = .ok
              ({ isValid := true,
                 value := substr line (d + 1)
                   (digitsVal (substr line off (d - off))) },
               if d + 1 + digitsVal (substr line off (d - off)) + 1
                   < line.length
               then some (d + 1 + digitsVal (substr line off (d - off)) + 1)
               else none)))))))) := by
  constructor
  · intro h
    unfold _extract_token
    rw [h]
  · intro d hd
    refine ⟨?_, ?_, ?_⟩
    · intro hnum
      unfold _extract_token
      rw [hd]
      simp only [hnum, Bool.false_eq_true, not_false_eq_true, if_pos]
    · intro hdata
      unfold _extract_token
      rw [hd]
      simp only [hdata, is_numerical_nil, not_true_eq_false, if_neg,
        Bool.true_eq_false, if_false, stoull_nil]
    · intro hdata hnum
      have hst := stoull_all_digits hdata hnum
      constructor
      · intro hbig
        unfold _extract_token
        rw [hd]
        simp only [hnum, not_true_eq_false, Bool.true_eq_false, if_false,
          hst]
        rw [if_neg (by omega)]
      · intro hfit
        rw [if_pos hfit] at hst
        constructor
        · intro hshort
          unfold _extract_token
          rw [hd]
          simp only [hnum, not_true_eq_false, Bool.true_eq_false, if_false,
            hst]
          rw [if_pos hshort]
        · intro hlong
          unfold _extract_token
          rw [hd]
          simp only [hnum, not_true_eq_false, Bool.true_eq_false, if_false,
            hst]
          rw [if_neg (by omega)]

theorem extract_token_failure_classification_witness :
    _extract_token ("ab".data) 0
      = .ok ({ isValid := false, value := [] }, none) :=
  (extract_token_failure_classification ("ab".data) 0).1 (by decide)

lemma size_eq_all_length (s : FMState) : s.size = s.all.length := by
  simp [FMState.size, FMState.all]

lemma read_eq_all (s : FMState) (i : Nat) :
    s.read i = if i < s.size then .ok (s.all.getD i [])
      else .error .out_of_range := by
  unfold FMState.read FMState.size FMState.all
  by_cases h : i < s.index_order.length
  · rw [if_neg (by omega), if_pos h]
    have h1 : s.index_order.getD i 0 = s.index_order[i] :=
      List.getD_eq_getElem _ _ h
    have h2 : ((s.index_order.map fun j => s.cache.getD j []).getD i [])
        = s.cache.getD s.index_order[i] [] := by
      rw [List.getD_eq_getElem?_getD, List.getElem?_map,
        List.getElem?_eq_getElem h]
      rfl
    rw [h1, h2]
  · rw [if_pos (by omega), if_neg h]

lemma first_eq_read (s : FMState) : s.first = s.read 0 := by
  unfold FMState.first FMState.read
  by_cases h : s.index_order.isEmpty
  · rw [if_pos h, if_pos (by rw [List.isEmpty_iff_length_eq_zero] at h; omega)]
  · rw [if_neg h, if_neg (by
      rw [List.isEmpty_iff_length_eq_zero] at h
      omega)]

lemma last_eq_read (s : FMState) : s.last = s.read (s.size - 1) := by
  unfold FMState.last FMState.read FMState.size
  by_cases h : s.index_order.isEmpty
  · rw [if_pos h, if_pos (by rw [List.isEmpty_iff_length_eq_zero] at h; omega)]
  · rw [if_neg h, if_neg (by
      rw [List.isEmpty_iff_length_eq_zero] at h
      omega)]

lemma empty_eq_all (s : FMState) : s.empty = s.all.isEmpty := by
  unfold FMState.empty FMState.all
  cases s.index_order <;> rfl

lemma range_getD_map (L : List (List Char)) :
    (List.range L.length).map (fun j => L.getD j []) = L := by
  apply List.ext_getElem
  · simp
  · intro i h1 h2
    simp only [List.getElem_map, List.getElem_range]
    rw [List.getD_eq_getElem]

lemma compact_all (s : FMState) : (_compact s).all = s.all := by
  show (List.range (s.index_order.map fun j => s.cache.getD j []).length).map
      (fun j => (s.index_order.map fun j => s.cache.getD j []).getD j []) = _
  rw [range_getD_map]
  rfl

lemma compact_size (s : FMState) : (_compact s).size = s.size := by
  simp [_compact, FMState.size]

lemma eraseIdx_map_comm (f : Nat → List Char) :
    ∀ (l : List Nat) (i : Nat), (l.eraseIdx i).map f = (l.map f).eraseIdx i := by
  intro l
  induction l with
  | nil => intro i; rfl
  | cons a l ih =>
    intro i
    cases i with
    | zero => rfl
    | succ j =>
      simp only [List.eraseIdx_cons_succ, List.map_cons]
      rw [ih j]

lemma read_congr {s t : FMState} (h : s.all = t.all) (i : Nat) :
    s.read i = t.read i := by
  rw [read_eq_all, read_eq_all, size_eq_all_length, size_eq_all_length, h]

lemma apply_erase_nc_ok {i : Nat} {s : FMState} (h : i < s.size) :
    ∃ s', _apply_erase_nocompact i s = .ok s' := by
  unfold _apply_erase_nocompact
  rw [if_neg (by unfold FMState.size at h; omega)]
  exact ⟨_, rfl⟩

lemma erase_err {i : Nat} {s : FMState} (h : ¬ i < s.size) :
    _apply_erase i s = .error .invalid_argument := by
  unfold _apply_erase
  rw [if_pos (by unfold FMState.size at h; omega)]

lemma erase_nc_err {i : Nat} {s : FMState} (h : ¬ i < s.size) :
    _apply_erase_nocompact i s = .error .invalid_argument := by
  unfold _apply_erase_nocompact
  rw [if_pos (by unfold FMState.size at h; omega)]

lemma erase_ok_all {i : Nat} {s s' : FMState} (hi : i < s.size)
    (h : _apply_erase i s = .ok s') : s'.all = s.all.eraseIdx i := by
  unfold _apply_erase at h
  rw [if_neg (by unfold FMState.size at hi; omega)] at h
  injection h with h
  have hbase : (FMState.mk s.cache (s.index_order.eraseIdx i) true).all
      = s.all.eraseIdx i := by
    unfold FMState.all
    exact eraseIdx_map_comm _ _ _
  rw [← h]
  split
  · rw [compact_all]
    exact hbase
  · exact hbase

lemma erase_nc_ok_all {i : Nat} {s s' : FMState} (hi : i < s.size)
    (h : _apply_erase_nocompact i s = .ok s') :
    s'.all = s.all.eraseIdx i := by
  unfold _apply_erase_nocompact at h
  rw [if_neg (by unfold FMState.size at hi; omega)] at h
  injection h with h
  rw [← h]
  unfold FMState.all
  exact eraseIdx_map_comm _ _ _

lemma eraseChain_all (is : List Nat) : ∀ s t : FMState, s.all = t.all →
    (eraseChain is s).all = (eraseChainNC is t).all := by
  induction is with
  | nil => intro s t h; exact h
  | cons i is ih =>
    intro s t h
    have hsize : s.size = t.size := by
      rw [size_eq_all_length, size_eq_all_length, h]
    show (eraseChain is (match _apply_erase i s with
      | .ok s' => s' | .error _ => s)).all =
      (eraseChainNC is (match _apply_erase_nocompact i t with
        | .ok t' => t' | .error _ => t)).all
    by_cases hi : i < s.size
    · obtain ⟨s', hs'⟩ := apply_erase_ok hi
      obtain ⟨t', ht'⟩ := apply_erase_nc_ok (show i < t.size by omega)
      rw [hs', ht']
      exact ih s' t' (by
        rw [erase_ok_all hi hs', erase_nc_ok_all (show i < t.size by omega) ht', h])
    · rw [erase_err hi, erase_nc_err (show ¬ i < t.size by omega)]
      exact ih s t h

/-- C7: Compaction transparency.  For every store state, `_compact`
leaves every externally observable result unchanged (`all`, `size`,
`empty`, `read` at every index, `first`, `last`); consequently a sequence
of erases with the threshold-triggered compaction enabled is
observationally equivalent to the same sequence without compaction. -/
theorem compaction_transparency :
    (∀ s : FMState,
      (_compact s).all = s.all ∧ (_compact s).size = s.size ∧
      (_compact s).empty = s.empty ∧
      (∀ i, (_compact s).read i = s.read i) ∧
      (_compact s).first = s.first ∧ (_compact s).last = s.last) ∧
    (∀ (is : List Nat) (s : FMState),
      (eraseChain is s).all = (eraseChainNC is s).all ∧
      (eraseChain is s).size = (eraseChainNC is s).size ∧
      (∀ i, (eraseChain is s).read i = (eraseChainNC is s).read i)) := by
  constructor
  · intro s
    have hall := compact_all s
    refine ⟨hall, compact_size s, ?_, read_congr hall, ?_, ?_⟩
    · rw [empty_eq_all, empty_eq_all, hall]
    · rw [first_eq_read, first_eq_read]
      exact read_congr hall 0
    · rw [last_eq_read, last_eq_read, compact_size s]
      exact read_congr hall (s.size - 1)
  · intro is s
    have hall := eraseChain_all is s s rfl
    exact ⟨hall,
      by rw [size_eq_all_length, size_eq_all_length, hall],
      read_congr hall⟩

/-- C9: Erase shifts later rows down by one position.  For every store
and `i < size()`, `erase(i)` succeeds, decreases `size()` by one, and for
every `j ≥ i` still in range `read(j)` afterwards equals `read(j + 1)`
before; concretely, from rows `[a, b, c]`, `erase(0)` yields
`all() = [b, c]` and `read(0) = b`. -/
theorem erase_shifts_rows (s : FMState) (i : Nat) (hi : i < s.size) :
    (∃ s', _apply_erase i s = .ok s' ∧ s'.size = s.size - 1 ∧
      ∀ j, i ≤ j → j < s'.size → s'.read j = s.read (j + 1)) ∧
    (∀ a b c : List Char, ∃ s₃,
      _apply_erase 0 (FMState.mk [a, b, c] [0, 1, 2] false) = .ok s₃ ∧
      s₃.all = [b, c] ∧ s₃.read 0 = .ok b) := by
  constructor
  · obtain ⟨s', hs'⟩ := apply_erase_ok hi
    have hall := erase_ok_all hi hs'
    have hilt : i < s.all.length := by rw [← size_eq_all_length]; exact hi
    have hsize : s'.size = s.size - 1 := by
      rw [size_eq_all_length, hall, List.length_eraseIdx_of_lt hilt,
        size_eq_all_length]
    refine ⟨s', hs', hsize, ?_⟩
    intro j hij hj
    rw [read_eq_all, read_eq_all, if_pos hj, if_pos (by omega)]
    have hj' : j < s'.all.length := by rw [← size_eq_all_length]; exact hj
    have hj'' : j < (s.all.eraseIdx i).length := by rw [← hall]; exact hj'
    rw [hall]
    congr 1
    rw [List.getD_eq_getElem _ _ hj'',
      List.getD_eq_getElem _ _ (by
        have := List.length_eraseIdx_of_lt hilt
        omega),
      List.getElem_eraseIdx_of_ge _ _ _ hj'' hij]
  · intro a b c
    exact ⟨_, rfl, rfl, rfl⟩

theorem erase_shifts_rows_witness :
    (0 < (FMState.mk ["r0".data, "r1".data] [0, 1] false).size) ∧
      ((∃ s', _apply_erase 0 (FMState.mk ["r0".data, "r1".data] [0, 1] false)
          = .ok s' ∧
        s'.size = (FMState.mk ["r0".data, "r1".data] [0, 1] false).size - 1 ∧
        ∀ j, 0 ≤ j → j < s'.size → s'.read j =
          (FMState.mk ["r0".data, "r1".data] [0, 1] false).read (j + 1)) ∧
      (∀ a b c : List Char, ∃ s₃,
        _apply_erase 0 (FMState.mk [a, b, c] [0, 1, 2] false) = .ok s₃ ∧
        s₃.all = [b, c] ∧ s₃.read 0 = .ok b)) :=
  ⟨by decide,
    erase_shifts_rows (FMState.mk ["r0".data, "r1".data] [0, 1] false) 0
      (by decide)⟩

/-- C8: Overwrite postcondition and frame.  For every store satisfying
the data-model invariant and every `i < size()`, `overwrite(i, text)`
succeeds, a subsequent `read(i)` returns `text`, `size()` is unchanged,
and `read(j)` is unchanged for every other valid index `j ≠ i`. -/
theorem overwrite_frame (s : FMState) (i : Nat) (t : List Char)
    (hInv : FMInv s) (hi : i < s.size) :
    ∃ s', _apply_overwrite i t s = .ok s' ∧ s'.read i = .ok t ∧
      s'.size = s.size ∧
      ∀ j, j < s.size → j ≠ i → s'.read j = s.read j := by
  obtain ⟨-, hnodup, hbound, -⟩ := hInv
  have hil : i < s.index_order.length := hi
  have hmem : s.index_order.getD i 0 ∈ s.index_order := by
    rw [List.getD_eq_getElem _ _ hil]
    exact List.getElem_mem hil
  have hk : s.index_order.getD i 0 < s.cache.length := hbound _ hmem
  refine ⟨FMState.mk (s.cache.set (s.index_order.getD i 0) t)
    s.index_order true, ?_, ?_, ?_, ?_⟩
  · unfold _apply_overwrite
    rw [if_neg (by omega)]
  · unfold FMState.read
    dsimp only
    rw [if_neg (by omega)]
    congr 1
    rw [List.getD_eq_getElem _ _ (by rw [List.length_set]; exact hk)]
    exact List.getElem_set_self _
  · rfl
  · intro j hj hne
    unfold FMState.read
    dsimp only
    have hjl : j < s.index_order.length := hj
    rw [if_neg (by omega), if_neg (by omega)]
    congr 1
    have hne' : s.index_order.getD i 0 ≠ s.index_order.getD j 0 := by
      rw [List.getD_eq_getElem _ _ hil, List.getD_eq_getElem _ _ hjl]
      intro hcontra
      exact hne ((hnodup.getElem_inj_iff.mp hcontra).symm)
    have hjk : s.index_order.getD j 0 < s.cache.length :=
      hbound _ (by
        rw [List.getD_eq_getElem _ _ hjl]
        exact List.getElem_mem hjl)
    rw [List.getD_eq_getElem _ _ (by rw [List.length_set]; exact hjk),
      List.getD_eq_getElem _ _ hjk]
    exact List.getElem_set_ne hne' _

theorem overwrite_frame_witness :
    FMInv (FMState.mk ["x".data, "y".data] [0, 1] false) ∧
      0 < (FMState.mk ["x".data, "y".data] [0, 1] false).size ∧
      (∃ s', _apply_overwrite 0 ("z".data)
          (FMState.mk ["x".data, "y".data] [0, 1] false) = .ok s' ∧
        s'.read 0 = .ok ("z".data) ∧
        s'.size = (FMState.mk ["x".data, "y".data] [0, 1] false).size ∧
        ∀ j, j < (FMState.mk ["x".data, "y".data] [0, 1] false).size →
          j ≠ 0 → s'.read j =
            (FMState.mk ["x".data, "y".data] [0, 1] false).read j) :=
  ⟨by unfold FMInv; decide, by decide,
    overwrite_frame (FMState.mk ["x".data, "y".data] [0, 1] false) 0
      ("z".data) (by unfold FMInv; decide) (by decide)⟩

/-- C5: Out-of-range contract.  For every store (empty ones included),
`read(i)`, `overwrite(i, text)` and `erase(i)` with `i ≥ size()` fail,
surfaced synchronously to the caller with no state change (the failing
call returns the exception instead of a new store), and `first()` and
`last()` on an empty store fail; each exception thrown belongs to the
spec's IndexOutOfRange taxonomy class. -/
theorem out_of_range_contract (st : Store) (i : Nat) (t : List Char)
    (hi : i ≥ st.fm.size) :
    st.fm.read i = .error .out_of_range ∧
    Store.overwrite i t st = .error .invalid_argument ∧
    Store.erase i st = .error .invalid_argument ∧
    (st.fm.size = 0 → st.fm.first = .error .out_of_range ∧
      st.fm.last = .error .out_of_range) ∧
    isIndexOutOfRange .out_of_range = true ∧
    isIndexOutOfRange .invalid_argument = true := by
  have hlen : st.fm.index_order.length ≤ i := hi
  refine ⟨?_, ?_, ?_, ?_, rfl, rfl⟩
  · unfold FMState.read
    rw [if_pos (by omega)]
  · unfold Store.overwrite
    rw [show _apply_overwrite i t st.fm = .error .invalid_argument from by
      unfold _apply_overwrite
      rw [if_pos (by omega)]]
  · unfold Store.erase
    rw [erase_err (by unfold FMState.size; omega)]
  · intro h0
    have hempty : st.fm.index_order.isEmpty = true := by
      rw [List.isEmpty_iff_length_eq_zero]
      exact h0
    exact ⟨by unfold FMState.first; rw [if_pos hempty],
      by unfold FMState.last; rw [if_pos hempty]⟩

theorem out_of_range_contract_witness :
    (0 ≥ (Store.mk demoInit (Journal.mk [] [] false)).fm.size) ∧
      ((Store.mk demoInit (Journal.mk [] [] false)).fm.read 0
          = .error .out_of_range ∧
       Store.overwrite 0 ("x".data) (Store.mk demoInit (Journal.mk [] [] false))
          = .error .invalid_argument ∧
       Store.erase 0 (Store.mk demoInit (Journal.mk [] [] false))
          = .error .invalid_argument ∧
       ((Store.mk demoInit (Journal.mk [] [] false)).fm.size = 0 →
        (Store.mk demoInit (Journal.mk [] [] false)).fm.first
            = .error .out_of_range ∧
        (Store.mk demoInit (Journal.mk [] [] false)).fm.last
            = .error .out_of_range) ∧
       isIndexOutOfRange .out_of_range = true ∧
       isIndexOutOfRange .invalid_argument = true) :=
  ⟨by decide,
    out_of_range_contract (Store.mk demoInit (Journal.mk [] [] false)) 0
      ("x".data) (by decide)⟩

lemma inv_init (lines : List (List Char)) : FMInv (_init_cache lines) := by
  refine ⟨rfl, List.nodup_range _, ?_, by simp [_init_cache]⟩
  intro j hj
  simp only [_init_cache, List.mem_range] at hj
  exact hj

lemma inv_compact (s : FMState) : FMInv (_compact s) := by
  refine ⟨rfl, List.nodup_range _, ?_, by simp [_compact]⟩
  intro j hj
  simp only [_compact, List.mem_range] at hj
  simpa [_compact] using hj

lemma inv_append {s : FMState} (t : List Char) (h : FMInv s) :
    FMInv (_apply_append t s) := by
  obtain ⟨-, hnodup, hbound, hlen⟩ := h
  have hcl : (s.cache ++ [t]).length = s.cache.length + 1 := by simp
  refine ⟨rfl, ?_, ?_, ?_⟩
  · show (s.index_order ++ [(s.cache ++ [t]).length - 1]).Nodup
    rw [List.nodup_append]
    refine ⟨hnodup, List.nodup_singleton _, ?_⟩
    intro x hx hx'
    rw [List.mem_singleton] at hx'
    have h2 := hbound x hx
    rw [hcl] at hx'
    omega
  · intro j hj
    show j < (s.cache ++ [t]).length
    rw [hcl]
    rcases List.mem_append.mp hj with hj | hj
    · have := hbound j hj
      omega
    · rw [List.mem_singleton, hcl] at hj
      omega
  · show (s.index_order ++ [(s.cache ++ [t]).length - 1]).length
      ≤ (s.cache ++ [t]).length
    rw [List.length_append, hcl]
    simp
    omega

lemma inv_overwrite {s s' : FMState} {i : Nat} {t : List Char}
    (h : FMInv s) (hs' : _apply_overwrite i t s = .ok s') : FMInv s' := by
  obtain ⟨-, hnodup, hbound, hlen⟩ := h
  unfold _apply_overwrite at hs'
  by_cases hi : i ≥ s.index_order.length
  · rw [if_pos hi] at hs'
    cases hs'
  · rw [if_neg hi] at hs'
    injection hs' with hs'
    subst hs'
    refine ⟨rfl, hnodup, ?_, ?_⟩
    · intro j hj
      show j < (s.cache.set _ t).length
      rw [List.length_set]
      exact hbound j hj
    · show s.index_order.length ≤ (s.cache.set _ t).length
      rw [List.length_set]
      exact hlen

lemma inv_erase {s s' : FMState} {i : Nat}
    (h : FMInv s) (hs' : _apply_erase i s = .ok s') : FMInv s' := by
  obtain ⟨-, hnodup, hbound, hlen⟩ := h
  unfold _apply_erase at hs'
  by_cases hi : i ≥ s.index_order.length
  · rw [if_pos hi] at hs'
    cases hs'
  · rw [if_neg hi] at hs'
    injection hs' with hs'
    have hbase : FMInv (FMState.mk s.cache (s.index_order.eraseIdx i) true) := by
      refine ⟨rfl, (List.eraseIdx_sublist _ _).nodup hnodup, ?_, ?_⟩
      · intro j hj
        exact hbound j (List.mem_of_mem_eraseIdx hj)
      · show (s.index_order.eraseIdx i).length ≤ s.cache.length
        have := List.length_eraseIdx_le s.index_order i
        omega
    rw [← hs']
    split
    · exact inv_compact _
    · exact hbase

lemma inv_clear {s : FMState} (h : FMInv s) : FMInv (_apply_clear s) := by
  unfold _apply_clear
  split
  · exact h
  · refine ⟨rfl, List.nodup_nil, ?_, ?_⟩
    · intro j hj
      exact absurd hj (List.not_mem_nil j)
    · simp

lemma inv_applyMutT {s : FMState} (m : Mutation) (h : FMInv s) :
    FMInv (applyMutT m s) := by
  unfold applyMutT
  cases m with
  | append t => exact inv_append t h
  | overwrite i t =>
    cases hres : _apply_overwrite i t s with
    | ok s' =>
      show FMInv (match _apply_overwrite i t s with
        | .ok s' => s' | .error _ => s)
      rw [hres]
      exact inv_overwrite h hres
    | error e =>
      show FMInv (match _apply_overwrite i t s with
        | .ok s' => s' | .error _ => s)
      rw [hres]
      exact h
  | erase i =>
    cases hres : _apply_erase i s with
    | ok s' =>
      show FMInv (match _apply_erase i s with
        | .ok s' => s' | .error _ => s)
      rw [hres]
      exact inv_erase h hres
    | error e =>
      show FMInv (match _apply_erase i s with
        | .ok s' => s' | .error _ => s)
      rw [hres]
      exact h
  | clear => exact inv_clear h

/-- C6: Data-model invariant.  After construction from any base file and
after every sequence of public mutations (append, overwrite, erase,
clear — the reads do not mutate), the store satisfies: the index has one
entry per logical row (`len(Index) = size()`), the index entries are
pairwise distinct valid slot positions, and the cache never has fewer
slots than the index has rows. -/
theorem invariant_preserved (lines : List (List Char)) (ms : List Mutation) :
    FMInv (applyMutsT ms (_init_cache lines)) := by
  suffices h : ∀ s, FMInv s → FMInv (applyMutsT ms s) from
    h _ (inv_init lines)
  induction ms with
  | nil => intro s h; exact h
  | cons m ms ih =>
    intro s h
    exact ih _ (inv_applyMutT m h)

/-- C10: `clear()` on an empty store leaves the cache, the index and the
needs-consolidation flag unchanged (`_apply_clear` returns early), yet it
still records a Clear entry through `Journal::record` — in particular,
while the pending buffer is below the flush threshold, the entry sits in
the pending buffer. -/
theorem clear_on_empty_store (st : Store) (h0 : st.fm.size = 0) :
    (Store.clear st).fm = st.fm ∧
    (Store.clear st).journal = st.journal.record (encodeMut .clear) ∧
    (st.journal.pending_commands.length + 1 < 16 →
      (Store.clear st).journal.pending_commands
        = st.journal.pending_commands ++ [encodeMut .clear]) := by
  refine ⟨?_, rfl, ?_⟩
  · show _apply_clear st.fm = st.fm
    unfold _apply_clear
    rw [if_pos (by rw [List.isEmpty_iff_length_eq_zero]; exact h0)]
  · intro hlt
    show (st.journal.record (encodeMut .clear)).pending_commands = _
    unfold Journal.record
    rw [if_neg (by simp; omega)]

theorem clear_on_empty_store_witness :
    (Store.mk demoInit (Journal.mk [] [] false)).fm.size = 0 ∧
      ((Store.clear (Store.mk demoInit (Journal.mk [] [] false))).fm
          = (Store.mk demoInit (Journal.mk [] [] false)).fm ∧
       (Store.clear (Store.mk demoInit (Journal.mk [] [] false))).journal
          = (Journal.mk [] [] false).record (encodeMut .clear) ∧
       ((Journal.mk [] [] false : Journal).pending_commands.length + 1 < 16 →
        (Store.clear (Store.mk demoInit (Journal.mk [] [] false))).journal.pending_commands
          = (Journal.mk [] [] false : Journal).pending_commands
              ++ [encodeMut .clear])) :=
  ⟨by decide,
    clear_on_empty_store (Store.mk demoInit (Journal.mk [] [] false))
      (by decide)⟩
